import Mathlib

/-!
Verification of the HOL4 VS Code extension's session/output core.

The development shallowly embeds, over `List Char`:
* the `processOpens` preprocessor of `src/holcommands.ts` / `src/extension.ts`
  (JS regex behaviour of the concrete patterns is modelled byte-for-byte);
* the sentinel-based `HolKernel` and its `Execution` class (`kernel.ts`,
  sentinel `--zero` variant): `runCell`, `finish`, `appendOutput`, `start`'s
  startup listeners, `cancelAll`, `onKilled`, `interrupt`, `sync`, `sendRaw`;
* the timer-based `HolKernel` stdout handler (prompt stripping);
* `HolTerminal.sendRaw`.

Observable effects (channel writes, cell output items, execution end
notifications, overflow events, signals, log lines) are reified as an
event list so that routing / ordering / idempotence claims can be stated.
-/

namespace Hol4

/-- The JavaScript `\s` character class (whitespace as used by the
`RegExp`s in `processOpens`). -/
def jsWs (c : Char) : Bool :=
  c = ' ' || c = '\t' || c = '\n' || c = '\r' ||
  c = (Char.ofNat 11) || c = (Char.ofNat 12) ||
  c = (Char.ofNat 0xa0) || c = (Char.ofNat 0x1680) ||
  (0x2000 ≤ c.toNat && c.toNat ≤ 0x200a) ||
  c = (Char.ofNat 0x2028) || c = (Char.ofNat 0x2029) ||
  c = (Char.ofNat 0x202f) || c = (Char.ofNat 0x205f) ||
  c = (Char.ofNat 0x3000) || c = (Char.ofNat 0xfeff)

/-- Length of the leading whitespace run (greedy `\s*`). -/
def wsCount : List Char → Nat
  | [] => 0
  | c :: cs => if jsWs c then wsCount cs + 1 else 0

/-- `needle` occurs as a contiguous substring of `hay`
(JavaScript `String.prototype.includes`). -/
def containsSub (needle hay : List Char) : Bool :=
  match hay with
  | [] => needle = []
  | _ :: tl => needle.isPrefixOf hay || containsSub needle tl

/-- Code-unit lexicographic order on strings, the order used by the default
comparator of JavaScript `Array.prototype.sort`. -/
def lexLe : List Char → List Char → Bool
  | [], _ => true
  | _ :: _, [] => false
  | a :: as, b :: bs =>
    if a.toNat < b.toNat then true
    else if b.toNat < a.toNat then false
    else lexLe as bs

/-- Insert into a `lexLe`-sorted list. -/
def insertLex (x : List Char) : List (List Char) → List (List Char)
  | [] => [x]
  | y :: ys => if lexLe x y then x :: y :: ys else y :: insertLex x ys

/-- Sorting with the default JavaScript comparator (`Array.prototype.sort`
on strings); since the order is total and antisymmetric this is the sort the
source performs. -/
def sortJS : List (List Char) → List (List Char)
  | [] => []
  | x :: xs => insertLex x (sortJS xs)

/-- `String.prototype.split(/\s/)`: split at every single whitespace
character, keeping empty fields. -/
def splitWs : List Char → List (List Char)
  | [] => [[]]
  | c :: cs =>
    if jsWs c then [] :: splitWs cs
    else
      match splitWs cs with
      | [] => [[c]]
      | w :: ws => (c :: w) :: ws

/-- `Array.prototype.join(sep)`. -/
def joinSep (sep : List Char) : List (List Char) → List Char
  | [] => []
  | [w] => w
  | w :: ws => w ++ sep ++ joinSep sep ws

theorem lexLe_total (a b : List Char) : lexLe a b = true ∨ lexLe b a = true := by
  induction a generalizing b with
  | nil => left; rfl
  | cons x xs ih =>
    cases b with
    | nil => right; rfl
    | cons y ys =>
      by_cases hxy : x.toNat < y.toNat
      · left; simp [lexLe, hxy]
      · by_cases hyx : y.toNat < x.toNat
        · right; simp [lexLe, hyx]
        · have := ih ys
          rcases this with h | h
          · left; simp [lexLe, hxy, hyx, h]
          · right; simp [lexLe, hxy, hyx, h]

theorem lexLe_trans (a b c : List Char) (hab : lexLe a b = true)
    (hbc : lexLe b c = true) : lexLe a c = true := by
  induction a generalizing b c with
  | nil => rfl
  | cons x xs ih =>
    cases b with
    | nil => simp [lexLe] at hab
    | cons y ys =>
      cases c with
      | nil => simp [lexLe] at hbc
      | cons z zs =>
        simp only [lexLe] at hab hbc ⊢
        by_cases hxy : x.toNat < y.toNat
        · by_cases hyz : y.toNat < z.toNat
          · simp [Nat.lt_trans hxy hyz]
          · by_cases hzy : z.toNat < y.toNat
            · simp [hyz, hzy] at hbc
            · have : y.toNat = z.toNat := by omega
              simp [this ▸ hxy]
        · by_cases hyx : y.toNat < x.toNat
          · simp [hxy, hyx] at hab
          · have hxyeq : x.toNat = y.toNat := by omega
            simp only [hxy, hyx, if_false] at hab
            by_cases hyz : y.toNat < z.toNat
            · simp [hxyeq ▸ hyz]
            · by_cases hzy : z.toNat < y.toNat
              · simp [hyz, hzy] at hbc
              · simp only [hyz, hzy, if_false] at hbc
                have h1 : ¬ x.toNat < z.toNat := by omega
                have h2 : ¬ z.toNat < x.toNat := by omega
                simp only [h1, h2, if_false]
                exact ih ys zs hab hbc

theorem mem_insertLex (z x : List Char) (l : List (List Char))
    (hz : z ∈ insertLex x l) : z = x ∨ z ∈ l := by
  induction l with
  | nil => simpa [insertLex] using hz
  | cons w ws ihw =>
    simp only [insertLex] at hz
    by_cases hxw : lexLe x w = true
    · rw [if_pos hxw] at hz
      rcases List.mem_cons.mp hz with h | h
      · left; exact h
      · right; exact h
    · rw [if_neg hxw] at hz
      rcases List.mem_cons.mp hz with h | h
      · right; exact List.mem_cons.mpr (Or.inl h)
      · rcases ihw h with h' | h'
        · left; exact h'
        · right; exact List.mem_cons.mpr (Or.inr h')

theorem insertLex_sorted (x : List Char) (l : List (List Char))
    (h : l.Pairwise (fun a b => lexLe a b = true)) :
    (insertLex x l).Pairwise (fun a b => lexLe a b = true) := by
  induction l with
  | nil => simp [insertLex]
  | cons y ys ih =>
    rcases List.pairwise_cons.mp h with ⟨hy, hys⟩
    by_cases hxy : lexLe x y = true
    · simp only [insertLex]
      rw [if_pos hxy]
      refine List.pairwise_cons.mpr ⟨?_, h⟩
      intro z hz
      rcases List.mem_cons.mp hz with rfl | hz
      · exact hxy
      · exact lexLe_trans x y z hxy (hy z hz)
    · simp only [insertLex]
      rw [if_neg hxy]
      refine List.pairwise_cons.mpr ⟨?_, ih hys⟩
      intro z hz
      rcases mem_insertLex z x ys hz with rfl | hmem
      · rcases lexLe_total y z with h' | h'
        · exact h'
        · exact absurd h' hxy
      · exact hy z hmem

theorem sortJS_sorted (l : List (List Char)) :
    (sortJS l).Pairwise (fun a b => lexLe a b = true) := by
  induction l with
  | nil => simp [sortJS]
  | cons x xs ih => exact insertLex_sorted x (sortJS xs) ih

/-! ### `processOpens` (src/holcommands.ts and src/extension.ts)

The two copies of `processOpens` are textually identical.  The regexes it
uses are fixed, so they are embedded as concrete matching functions:
`openBegin = /\s*open\s/`, `openTerms` = the `;`-or-stopper alternation, and
the comment pattern.  JavaScript regex `exec` semantics (leftmost match,
greedy with backtracking) are modelled for exactly these patterns. -/

def openKeyword : List Char := "open".toList

/-- Match of `/\s*open\s/` anchored at the head of `cs`; the greedy `\s*`
has to stop exactly at the whitespace-run boundary since `o` is not
whitespace.  Returns the length of the match. -/
def matchOpenAt (cs : List Char) : Option Nat :=
  let k := wsCount cs
  let rest := cs.drop k
  if rest.take 4 = openKeyword then
    match rest.drop 4 with
    | c :: _ => if jsWs c then some (k + 5) else none
    | [] => none
  else none

def findOpenAux (i : Nat) : List Char → Option (Nat × Nat)
  | [] => none
  | c :: cs =>
    match matchOpenAt (c :: cs) with
    | some l => some (i, l)
    | none => findOpenAux (i + 1) cs

/-- Leftmost match of `openBegin = /\s*open\s/` in `cs`, as
`(index, length)` (the `index` and `[0].length` of the JS match). -/
def findOpen (cs : List Char) : Option (Nat × Nat) := findOpenAux 0 cs

/-- The `stoppers` array of `processOpens`, minus the specially-placed
first element `"val"` (in the built alternation only `val` lacks a
leading `\s`). -/
def stoppersTail : List (List Char) :=
  ["fun".toList, "local".toList, "open".toList, "type".toList,
   "datatype".toList, "nonfix".toList, "infix".toList, "exception".toList,
   "in".toList, "end".toList, "structure".toList, "Theorem".toList,
   "Definition".toList, "Inductive".toList, "CoInductive".toList,
   "Triviality".toList, "Datatype".toList, "Type".toList, "Overload".toList]

/-- Is the character at offset `n` of `cs` JS-whitespace? -/
def wsAt (cs : List Char) (n : Nat) : Bool :=
  match cs.drop n with
  | c :: _ => jsWs c
  | [] => false

def matchWordAux (rest : List Char) : List (List Char) → Option Nat
  | [] => none
  | w :: ws =>
    if rest.take w.length = w && wsAt rest w.length then some (w.length + 2)
    else matchWordAux rest ws

/-- Match one alternative of the `openTerms` regexp
`;|val\s|\sfun\s|…|\sOverload\s` at the head of `cs`, trying the
alternatives in pattern order; returns the length of the match. -/
def stopMatchAt (cs : List Char) : Option Nat :=
  if cs.take 1 = [';'] then some 1
  else if cs.take 3 = "val".toList && wsAt cs 3 then some 4
  else
    match cs with
    | c :: rest => if jsWs c then matchWordAux rest stoppersTail else none
    | [] => none

def findStopAux (i : Nat) : List Char → Option (Nat × Nat)
  | [] => none
  | c :: cs =>
    match stopMatchAt (c :: cs) with
    | some l => some (i, l)
    | none => findStopAux (i + 1) cs

/-- Leftmost match of `openTerms` in `cs`, as `(index, length)`. -/
def findStop (cs : List Char) : Option (Nat × Nat) := findStopAux 0 cs

structure SearchForwardResult where
  matchStart : Nat
  contentStart : Nat
  matchEnd : Nat
  contentEnd : Nat
deriving Repr, DecidableEq

/-- `searchForward(text, 0, openBegin, openTerms)` of holcommands.ts:
if the stop regex does not match after the open match, `text.length - 1`
stands in for both ends. -/
def searchForwardOpen (text : List Char) : Option SearchForwardResult :=
  match findOpen text with
  | none => none
  | some (ms, len) =>
    let cs := ms + len
    match findStop (text.drop cs) with
    | none => some ⟨ms, cs, text.length - 1, text.length - 1⟩
    | some (j, sl) => some ⟨ms, cs, cs + j + sl, cs + j⟩

/-- Backtracking body of the comment regexp
`\(\*(\*[^\)]|[^\*])*\*\)`: after the opening `(*`, greedily consume
`\*[^\)]` or `[^\*]`, falling back to the closing `*)`. Returns the
remainder after the match. -/
def commentLoop : Nat → List Char → Option (List Char)
  | 0, _ => none
  | fuel + 1, cs =>
    (match cs with
     | '*' :: c :: rest => if c ≠ ')' then commentLoop fuel rest else none
     | _ => none) <|>
    (match cs with
     | c :: rest => if c ≠ '*' then commentLoop fuel rest else none
     | _ => none) <|>
    (match cs with
     | '*' :: ')' :: rest => some rest
     | _ => none)

def stripCommentsAux : Nat → List Char → List Char
  | 0, cs => cs
  | fuel + 1, cs =>
    match cs with
    | [] => []
    | '(' :: '*' :: rest =>
      (match commentLoop (rest.length + 1) rest with
       | some rem => stripCommentsAux fuel rem
       | none => '(' :: stripCommentsAux fuel ('*' :: rest))
    | c :: rest => c :: stripCommentsAux fuel rest

/-- `.replace(comment, '')`: delete every match of the comment regexp. -/
def stripComments (cs : List Char) : List Char := stripCommentsAux (cs.length + 1) cs

/-- Index of the last occurrence of `c` in `cs`. -/
def lastIdxOf (c : Char) (cs : List Char) : Option Nat :=
  match cs with
  | [] => none
  | x :: rest =>
    match lastIdxOf c rest with
    | some i => some (i + 1)
    | none => if x = c then some 0 else none

/-- `.replace(/\n\s*\n/g, '\n')`: each leftmost match runs from a `\n`
through the greedy whitespace run up to the last `\n` inside it. -/
def collapseAux : Nat → List Char → List Char
  | 0, cs => cs
  | fuel + 1, cs =>
    match cs with
    | [] => []
    | '\n' :: rest =>
      (match lastIdxOf '\n' (rest.take (wsCount rest)) with
       | some j => '\n' :: collapseAux fuel (rest.drop (j + 1))
       | none => '\n' :: collapseAux fuel rest)
    | c :: rest => c :: collapseAux fuel rest

def collapseBlank (cs : List Char) : List Char := collapseAux cs.length cs

/-- `.replace(/\r/g, '')`. -/
def stripCR (cs : List Char) : List Char := cs.filter (fun c => c ≠ '\r')

/-- The cleanup `processOpens` applies to the residual text:
`text.replace(/\n\s*\n/g, '\n').replace(/\r/g, '')`. -/
def cleanupText (cs : List Char) : List Char := stripCR (collapseBlank cs)

/-- Names pushed for one open clause:
`slice.replace(comment, '').split(/\s/).filter(len > 0).sort()`. -/
def clauseNames (content : List Char) : List (List Char) :=
  sortJS ((splitWs (stripComments content)).filter (fun s => decide (0 < s.length)))

/-- The `while ((match = searchForward(...)))` loop of `processOpens`;
each iteration strictly shortens the text, so `text.length + 1` fuel
suffices. -/
def processOpensLoop : Nat → List Char → List (List Char) → List Char × List (List Char)
  | 0, text, theories => (text, theories)
  | fuel + 1, text, theories =>
    match searchForwardOpen text with
    | none => (text, theories)
    | some m =>
      let content := (text.drop m.contentStart).take (m.contentEnd - m.contentStart)
      processOpensLoop fuel
        (text.take (m.matchStart + 1) ++ text.drop m.contentEnd)
        (theories ++ clauseNames content)

def mkBanner (theories : List (List Char)) : List Char :=
  "val _ = print \"Loading: ".toList ++ joinSep [' '] theories ++ " ...\\n\";".toList

def mkLoads (theories : List (List Char)) : List Char :=
  joinSep ['\n'] (theories.map (fun s => "val _ = load \"".toList ++ s ++ "\";".toList))

def mkOpenDecl (theories : List (List Char)) : List Char :=
  joinSep ['\n']
    ["val _ = HOL_Interactive.toggle_quietdec();".toList,
     "open ".toList ++ joinSep [' '] theories ++ [';'],
     "val _ = HOL_Interactive.toggle_quietdec();".toList]

def bannerDone : List Char := "val _ = print \"Done loading theories.\\n\"".toList

/-- `processOpens` of src/holcommands.ts (identical copy in
src/extension.ts). -/
def processOpens (text : List Char) : List Char :=
  let r := processOpensLoop (text.length + 1) text []
  let cleaned := cleanupText r.1
  if r.2 = [] then cleaned
  else joinSep ['\n'] [mkBanner r.2, mkLoads r.2, mkOpenDecl r.2, bannerDone, cleaned]

/-! ### The sentinel-based `HolKernel` and its `Execution`

Model of the `--zero` kernel variant (`Execution` with line buffering,
`runCell`/`finish`, `start`'s startup listeners, `cancelAll`/`onKilled`/
`interrupt`/`sync`).  Observable effects are reified as `Ev` events:
`write` = a `child.stdin.write`, `errlog` = an `error(...)` log line,
`willExec` = `execListener.fire`, `startEv` = `exec.start`, `outItem` =
a `NotebookCellOutput` appended to a cell (`err` = stderr item), `endEv` =
`exec.end(success)` (the owner notification), `overflow` =
`overflowListener.fire`, `execAppend` = a call of the current `Execution`'s
`appendOutput`, `sig` = a `process.kill(-pid, …)`.  The 300 ms
`writeAnyway` timer is modelled as a pending flag (its expiry is an
asynchronous action outside these claims). -/

inductive Sig where
  | sigint : Sig
  | sigterm : Sig
deriving DecidableEq, Repr

inductive Ev where
  | write (s : List Char)
  | errlog (s : List Char)
  | willExec (cid : Nat)
  | startEv (cid : Nat)
  | outItem (cid : Nat) (err : Bool) (s : List Char)
  | endEv (cid : Nat) (ok : Bool)
  | overflow (s : List Char) (err : Bool)
  | execAppend (cid : Nat) (s : List Char)
  | sig (sg : Sig)
deriving DecidableEq, Repr

def errorMarker : List Char := "error:".toList

structure Execution where
  cellId : Nat
  buffer : List Char
  success : Bool
  writeAnyway : Bool
deriving Repr, DecidableEq

def Execution.markFail (e : Execution) : Execution := {e with success := false}

/-- `Execution.output(err?)`: flush the buffer as one output item; stderr
item (and `markFail`) when `err` or the buffer contains `error:`.  The
buffer is not cleared here (call sites reassign it). -/
def Execution.output (e : Execution) (err : Bool) : Execution × List Ev :=
  if err || containsSub errorMarker e.buffer then
    ({e with success := false}, [Ev.outItem e.cellId true e.buffer])
  else
    (e, [Ev.outItem e.cellId false e.buffer])

/-- `Execution.appendOutput(str, err?)`: buffer up to the last newline of
`str`, flush through it (the newline itself separates output items), keep
the partial trailing line buffered and arm the `writeAnyway` timer when it
is nonempty; with no newline just extend the buffer (`markFail` if `err`). -/
def Execution.appendOutput (e : Execution) (str : List Char) (err : Bool) :
    Execution × List Ev :=
  match lastIdxOf '\n' str with
  | some pos =>
    let e1 := {e with buffer := e.buffer ++ str.take pos}
    let p := e1.output err
    let buf2 := str.drop (pos + 1)
    ({p.1 with buffer := buf2,
               writeAnyway := if buf2 ≠ [] then true else p.1.writeAnyway}, p.2)
  | none =>
    ({e with success := if err then false else e.success,
             buffer := e.buffer ++ str}, [])

/-- `Execution.end(success?)`: flush a nonempty buffer, clear the timer,
then notify the owner via `exec.end(success ?? this.success, Date.now())`.
(The buffer is not cleared.) -/
def Execution.endExec (e : Execution) (succ : Option Bool) : Execution × List Ev :=
  let p := if e.buffer ≠ [] then e.output false else (e, [])
  let e2 := {p.1 with writeAnyway := false}
  (e2, p.2 ++ [Ev.endEv e2.cellId (succ.getD e2.success)])

structure Child where
  pid : Option Nat
  killed : Bool
  exitCode : Option Int
deriving Repr, DecidableEq

/-- The liveness test of `HolKernel.sync`:
`this.child.killed || !this.child.pid || this.child?.exitCode != null`. -/
def Child.deadish (c : Child) : Bool := c.killed || c.pid.isNone || c.exitCode.isSome

structure Cell where
  id : Nat
  text : List Char
  fullContent : Option (List Char)
deriving Repr, DecidableEq

structure HolKernel where
  child : Option Child
  currentExecution : Option Execution
  executionQueue : List Cell
  executionOrder : Nat
deriving Repr, DecidableEq

def HolKernel.running (s : HolKernel) : Bool := s.child.isSome

/-- `HolKernel.sendRaw`: write to the child's stdin if a child handle is
present, otherwise log an error. -/
def HolKernel.sendRaw (s : HolKernel) (text : List Char) : List Ev :=
  if s.child.isSome then [Ev.write text]
  else [Ev.errlog "HOL session is not started".toList]

/-- `cancelAll`: mark the current execution (if any) failed and ended,
clear the current binding, and drop the whole pending queue. -/
def HolKernel.cancelAll (s : HolKernel) : HolKernel × List Ev :=
  match s.currentExecution with
  | some e =>
    let p := (e.markFail).endExec none
    ({s with currentExecution := none, executionQueue := []}, p.2)
  | none => ({s with executionQueue := []}, [])

/-- `onKilled` (registered for `disconnect`, `close` and `exit`):
`cancelAll` then drop the child handle. -/
def HolKernel.onKilled (s : HolKernel) : HolKernel × List Ev :=
  let p := s.cancelAll
  ({p.1 with child := none}, p.2)

/-- `sync`: reconcile with a child that died without an observed event. -/
def HolKernel.sync (s : HolKernel) : HolKernel × List Ev :=
  match s.child with
  | some c => if c.deadish then s.onKilled else (s, [])
  | none => (s, [])

def notStartedMsg : List Char := "HOL process is not started".toList

def sentinelChar : Char := Char.ofNat 0

mutual

/-- `runCell`, fuelled for the mutual recursion through `finish` (only the
no-child failure path recurses; each round pops one queued cell). -/
def HolKernel.runCellF : Nat → HolKernel → Cell → HolKernel × List Ev
  | 0, s, _ => (s, [])
  | fuel + 1, s, cell =>
    match s.currentExecution with
    | some _ => ({s with executionQueue := s.executionQueue ++ [cell]}, [])
    | none =>
      let p := HolKernel.sync s
      let s1 := p.1
      let ex : Execution := ⟨cell.id, [], true, false⟩
      let s2 := {s1 with currentExecution := some ex}
      match s2.child with
      | some _ =>
        let s3 := {s2 with executionOrder := s2.executionOrder + 1}
        let wr := s3.sendRaw ((cell.fullContent.getD cell.text) ++ [sentinelChar])
        (s3, p.2 ++ [Ev.willExec cell.id, Ev.startEv cell.id] ++ wr)
      | none =>
        let s3 := {s2 with currentExecution := some ex.markFail}
        let q := HolKernel.finishF fuel s3
        (q.1, p.2 ++ [Ev.willExec cell.id, Ev.startEv cell.id,
                      Ev.outItem cell.id true notStartedMsg] ++ q.2)

/-- `finish`: end the current execution, clear the binding, and promote the
head of the queue (if any) by re-entering `runCell`. -/
def HolKernel.finishF : Nat → HolKernel → HolKernel × List Ev
  | 0, s => (s, [])
  | fuel + 1, s =>
    match s.currentExecution with
    | none => (s, [])
    | some e =>
      let p := e.endExec none
      let s1 := {s with currentExecution := none}
      match s1.executionQueue with
      | [] => (s1, p.2)
      | c :: rest =>
        let q := HolKernel.runCellF fuel {s1 with executionQueue := rest} c
        (q.1, p.2 ++ q.2)

end

def HolKernel.runCell (s : HolKernel) (cell : Cell) : HolKernel × List Ev :=
  HolKernel.runCellF (2 * s.executionQueue.length + 2) s cell

def HolKernel.finish (s : HolKernel) : HolKernel × List Ev :=
  HolKernel.finishF (2 * s.executionQueue.length + 2) s

/-- The kernel's private `appendOutput(str, err?)`: the demultiplexer.
Routes `str` to the current `Execution`'s `appendOutput` when one exists
(note the source does not forward `err` there), otherwise fires an
`OverflowEvent {s: str, err: err ?? false}`. -/
def HolKernel.appendOutput (s : HolKernel) (str : List Char) (err : Bool) :
    HolKernel × List Ev :=
  match s.currentExecution with
  | some e =>
    let p := e.appendOutput str false
    ({s with currentExecution := some p.1}, Ev.execAppend e.cellId str :: p.2)
  | none => (s, [Ev.overflow str err])

/-- The post-startup stdout data listener installed by `finishOpen`:
a chunk whose final byte is the NUL sentinel has the sentinel stripped,
is routed, and completes the current request; otherwise the chunk is
routed whole. -/
def HolKernel.stdoutData (s : HolKernel) (data : List Char) : HolKernel × List Ev :=
  if data = [] then (s, [])
  else if data.getLast? = some sentinelChar then
    let p := s.appendOutput data.dropLast false
    let q := p.1.finish
    (q.1, p.2 ++ q.2)
  else s.appendOutput data false

/-- The post-startup stderr data listener installed by `finishOpen`. -/
def HolKernel.stderrData (s : HolKernel) (data : List Char) : HolKernel × List Ev :=
  if data = [] then (s, []) else s.appendOutput data true

/-- `interrupt`: SIGINT to the process group (when there is a pid), then
unconditionally `cancelAll`. -/
def HolKernel.interrupt (s : HolKernel) : HolKernel × List Ev :=
  let evs :=
    match s.child with
    | some c => match c.pid with
                | some _ => [Ev.sig Sig.sigint]
                | none => []
    | none => []
  let p := s.cancelAll
  (p.1, evs ++ p.2)

/-- `stop`: SIGTERM to the process group (when there is a pid), then
`onKilled`. -/
def HolKernel.stop (s : HolKernel) : HolKernel × List Ev :=
  let evs :=
    match s.child with
    | some c => match c.pid with
                | some _ => [Ev.sig Sig.sigterm]
                | none => []
    | none => []
  let p := s.onKilled
  (p.1, evs ++ p.2)

/-! ### The startup listeners of `HolKernel.start`

`start` resolves its promise only from the stdout listener, on a chunk
whose final byte is the NUL sentinel (both startup listeners are then
removed and `finishOpen` runs); the stderr listener fires an overflow
event with `err = true` and rejects.  A promise settles at most once. -/

inductive SChunk where
  | fromOut (data : List Char)
  | fromErr (data : List Char)
deriving DecidableEq, Repr

inductive Settle where
  | resolved
  | rejected (s : List Char)
deriving DecidableEq, Repr

structure StartupS where
  buf : List (List Char)
  outcome : Option Settle
  listening : Bool
deriving DecidableEq, Repr

def startupInit : StartupS := ⟨[], none, true⟩

/-- `finishOpen(result)`: a nonempty accumulated splash is surfaced as one
overflow event (error-flagged when it contains `error:`). -/
def finishOpenEvents (result : List Char) : List Ev :=
  if result = [] then []
  else [Ev.overflow result (containsSub errorMarker result)]

def startupStep (st : StartupS) (ch : SChunk) : StartupS × List Ev :=
  if st.listening = false then (st, [])
  else
    match ch with
    | SChunk.fromErr d =>
      if d = [] then (st, [])
      else
        let s := joinSep [] (st.buf ++ [d])
        ({st with buf := [],
                  outcome := if st.outcome.isSome then st.outcome
                             else some (Settle.rejected s)},
         [Ev.overflow s true])
    | SChunk.fromOut d =>
      if d = [] then (st, [])
      else if d.getLast? = some sentinelChar then
        let s := joinSep [] (st.buf ++ [d.dropLast])
        ({st with listening := false,
                  outcome := if st.outcome.isSome then st.outcome
                             else some Settle.resolved},
         finishOpenEvents s)
      else ({st with buf := st.buf ++ [d]}, [])

def runStartup : StartupS → List SChunk → StartupS × List Ev
  | st, [] => (st, [])
  | st, ch :: rest =>
    let p := startupStep st ch
    let q := runStartup p.1 rest
    (q.1, p.2 ++ q.2)

/-! ### The timer-based `HolKernel` of src/src/kernel.ts: stdout handler

Prompt stripping in the `child.stdout.on('data', …)` handler: a chunk
ending in `"> "` loses its final two characters (and arms the
`looksLikeTheEnd` debounce timer, an asynchronous action outside these
claims); while `outputStart` is set, leading repetitions of `"> "` / `"# "`
are dropped, and the flag clears once something nonempty survives. -/

namespace TimerKernel

structure TExec where
  execId : Option Nat
  success : Bool
deriving DecidableEq, Repr

structure TState where
  outputStart : Bool
  currentExecution : Option TExec
deriving DecidableEq, Repr

/-- `str.endsWith('> ')`: the last two characters are `>` then a space. -/
def endsWithPrompt (cs : List Char) : Bool :=
  decide (cs.reverse.take 2 = [' ', '>'])

/-- `while (str.startsWith('> ', i) || str.startsWith('# ', i)) i += 2`
followed by `str.substring(i)`. -/
def dropPrompts : List Char → List Char
  | '>' :: ' ' :: rest => dropPrompts rest
  | '#' :: ' ' :: rest => dropPrompts rest
  | cs => cs

/-- The stripping the stdout handler applies to a chunk, and the resulting
`outputStart` flag. -/
def stripChunk (outputStart : Bool) (data : List Char) : List Char × Bool :=
  let s1 := if endsWithPrompt data then data.take (data.length - 2) else data
  if outputStart then
    let s2 := dropPrompts s1
    (s2, if s2 ≠ [] then false else true)
  else (s1, false)

/-- The whole stdout data handler: strip, then route a nonempty remainder
to the current execution's cell (when it has one: the splash `Execution`
has no `exec`) or as an overflow event; an empty remainder produces
nothing. -/
def handleStdout (st : TState) (data : List Char) : TState × List Ev :=
  let p := stripChunk st.outputStart data
  let str := p.1
  let st1 := {st with outputStart := p.2}
  if str = [] then (st1, [])
  else
    match st1.currentExecution with
    | some e =>
      match e.execId with
      | some cid =>
        let e1 := if containsSub errorMarker str then {e with success := false} else e
        ({st1 with currentExecution := some e1}, [Ev.outItem cid false str])
      | none => (st1, [Ev.overflow str false])
    | none => (st1, [Ev.overflow str false])

end TimerKernel

/-! ### `HolTerminal.sendRaw` -/

inductive JsOutcome where
  | ok (evs : List Ev)
  | typeError
deriving DecidableEq, Repr

/-- `HolTerminal.sendRaw`: `this.child!.stdin?.write(text)`.  The `!` is a
compile-time assertion only; with no child handle the member access throws
a TypeError at runtime. -/
def HolTerminal.sendRaw (child : Option Child) (text : List Char) : JsOutcome :=
  match child with
  | some _ => JsOutcome.ok [Ev.write text]
  | none => JsOutcome.typeError

/-! ### Event projections used by the theorems -/

def countEndEv (evs : List Ev) : Nat :=
  (evs.filter (fun e => match e with | Ev.endEv _ _ => true | _ => false)).length

/-- Routing events: calls of the current execution's `appendOutput` and
overflow firings. -/
def isRouteEv : Ev → Bool
  | Ev.execAppend _ _ => true
  | Ev.overflow _ _ => true
  | _ => false

def routeEvents (evs : List Ev) : List Ev := evs.filter isRouteEv

def willExecIds (evs : List Ev) : List Nat :=
  evs.filterMap (fun e => match e with | Ev.willExec c => some c | _ => none)

def writeEvents (evs : List Ev) : List (List Char) :=
  evs.filterMap (fun e => match e with | Ev.write s => some s | _ => none)

def endEvents (evs : List Ev) : List (Nat × Bool) :=
  evs.filterMap (fun e => match e with | Ev.endEv c b => some (c, b) | _ => none)

/-! ### Projection lemmas -/

theorem endEvents_append (a b : List Ev) :
    endEvents (a ++ b) = endEvents a ++ endEvents b := by
  simp [endEvents]

theorem willExecIds_append (a b : List Ev) :
    willExecIds (a ++ b) = willExecIds a ++ willExecIds b := by
  simp [willExecIds]

theorem writeEvents_append (a b : List Ev) :
    writeEvents (a ++ b) = writeEvents a ++ writeEvents b := by
  simp [writeEvents]

theorem routeEvents_append (a b : List Ev) :
    routeEvents (a ++ b) = routeEvents a ++ routeEvents b := by
  simp [routeEvents]

theorem countEndEv_append (a b : List Ev) :
    countEndEv (a ++ b) = countEndEv a + countEndEv b := by
  simp [countEndEv]

/-- The events of `Execution.end` are a flush (zero or one output items)
followed by exactly the one owner notification. -/
theorem endExec_events_shape (e : Execution) (succ : Option Bool) :
    ∃ flush ok, (e.endExec succ).2 = flush ++ [Ev.endEv e.cellId ok] ∧
      (flush = [] ∨ ∃ err, flush = [Ev.outItem e.cellId err e.buffer]) := by
  unfold Execution.endExec Execution.output
  by_cases hb : e.buffer ≠ []
  · by_cases hc : containsSub errorMarker e.buffer
    · refine ⟨[Ev.outItem e.cellId true e.buffer], succ.getD false, ?_, Or.inr ⟨true, rfl⟩⟩
      simp [hb, hc]
    · refine ⟨[Ev.outItem e.cellId false e.buffer], succ.getD e.success, ?_,
        Or.inr ⟨false, rfl⟩⟩
      simp [hb, hc]
  · refine ⟨[], succ.getD e.success, ?_, Or.inl rfl⟩
    simp [hb]

theorem endEvents_markFail_endExec (e : Execution) :
    endEvents ((e.markFail).endExec none).2 = [(e.cellId, false)] := by
  unfold Execution.endExec Execution.output Execution.markFail
  by_cases hb : e.buffer ≠ [] <;> by_cases hc : containsSub errorMarker e.buffer <;>
    simp [hb, hc, endEvents]

theorem willExecIds_endExec (e : Execution) (succ : Option Bool) :
    willExecIds (e.endExec succ).2 = [] := by
  obtain ⟨flush, ok, hev, hfl⟩ := endExec_events_shape e succ
  rcases hfl with rfl | ⟨err, rfl⟩ <;> simp [hev, willExecIds]

theorem writeEvents_endExec (e : Execution) (succ : Option Bool) :
    writeEvents (e.endExec succ).2 = [] := by
  obtain ⟨flush, ok, hev, hfl⟩ := endExec_events_shape e succ
  rcases hfl with rfl | ⟨err, rfl⟩ <;> simp [hev, writeEvents]

theorem routeEvents_endExec (e : Execution) (succ : Option Bool) :
    routeEvents (e.endExec succ).2 = [] := by
  obtain ⟨flush, ok, hev, hfl⟩ := endExec_events_shape e succ
  rcases hfl with rfl | ⟨err, rfl⟩ <;> simp [hev, routeEvents, isRouteEv]

theorem countEndEv_endExec (e : Execution) (succ : Option Bool) :
    countEndEv (e.endExec succ).2 = 1 := by
  obtain ⟨flush, ok, hev, hfl⟩ := endExec_events_shape e succ
  rcases hfl with rfl | ⟨err, rfl⟩ <;> simp [hev, countEndEv]

/-! ### Claims -/

/-- **C4** (amended core facts used by the claim): `interrupt()` sends
SIGINT to the process group (when a child with a pid exists) and, in the
same synchronous step, fails and ends the current execution, clears the
current binding and empties the pending queue; the dropped queued cells
are never started (no `willExec`) and nothing further is written to the
process. -/
theorem interrupt_cancels (s : HolKernel) (e : Execution)
    (hcur : s.currentExecution = some e) :
    (s.interrupt).1.currentExecution = none ∧
    (s.interrupt).1.executionQueue = [] ∧
    (s.interrupt).1.child = s.child ∧
    endEvents (s.interrupt).2 = [(e.cellId, false)] ∧
    willExecIds (s.interrupt).2 = [] ∧
    writeEvents (s.interrupt).2 = [] ∧
    (∀ c, s.child = some c → c.pid.isSome = true →
      (s.interrupt).2.head? = some (Ev.sig Sig.sigint)) := by
  have hev : endEvents ((e.markFail).endExec none).2 = [(e.cellId, false)] :=
    endEvents_markFail_endExec e
  have hwi : willExecIds ((e.markFail).endExec none).2 = [] :=
    willExecIds_endExec _ _
  have hwr : writeEvents ((e.markFail).endExec none).2 = [] :=
    writeEvents_endExec _ _
  unfold HolKernel.interrupt HolKernel.cancelAll
  rw [hcur]
  refine ⟨rfl, rfl, rfl, ?_, ?_, ?_, ?_⟩
  · cases hch : s.child with
    | none => simpa [hch] using hev
    | some c =>
      cases hp : c.pid with
      | none => simpa [hch, hp] using hev
      | some p => simpa [hch, hp, endEvents_append, endEvents] using hev
  · cases hch : s.child with
    | none => simpa [hch] using hwi
    | some c =>
      cases hp : c.pid with
      | none => simpa [hch, hp] using hwi
      | some p => simpa [hch, hp, willExecIds_append, willExecIds] using hwi
  · cases hch : s.child with
    | none => simpa [hch] using hwr
    | some c =>
      cases hp : c.pid with
      | none => simpa [hch, hp] using hwr
      | some p => simpa [hch, hp, writeEvents_append, writeEvents] using hwr
  · intro c hch hp
    cases hpid : c.pid with
    | none => rw [hpid] at hp; simp at hp
    | some p => simp [hch, hpid]

/-- **C4 witness**. -/
theorem interrupt_cancels_witness :
    (HolKernel.interrupt ⟨some ⟨some 42, false, none⟩, some ⟨7, [], true, false⟩,
        [⟨1, [], none⟩, ⟨2, [], none⟩], 0⟩).1.currentExecution = none ∧
    (HolKernel.interrupt ⟨some ⟨some 42, false, none⟩, some ⟨7, [], true, false⟩,
        [⟨1, [], none⟩, ⟨2, [], none⟩], 0⟩).1.executionQueue = [] ∧
    (HolKernel.interrupt ⟨some ⟨some 42, false, none⟩, some ⟨7, [], true, false⟩,
        [⟨1, [], none⟩, ⟨2, [], none⟩], 0⟩).1.child = some ⟨some 42, false, none⟩ ∧
    endEvents (HolKernel.interrupt ⟨some ⟨some 42, false, none⟩, some ⟨7, [], true, false⟩,
        [⟨1, [], none⟩, ⟨2, [], none⟩], 0⟩).2 = [(7, false)] := by
  have h := interrupt_cancels
    ⟨some ⟨some 42, false, none⟩, some ⟨7, [], true, false⟩,
      [⟨1, [], none⟩, ⟨2, [], none⟩], 0⟩ ⟨7, [], true, false⟩ rfl
  exact ⟨h.1, h.2.1, h.2.2.1, h.2.2.2.1⟩

/-- **C5**: the process-exit handler `onKilled` (registered for each of
`exit`, `close` and `disconnect`) fails and ends the current execution (if
any), discards every queued cell (none is ever started), and returns the
kernel to the not-started state (`child = none`); re-invoking it leaves the
state unchanged and produces no events at all, so no execution is ended a
second time. -/
theorem onKilled_cancels_idempotent (s : HolKernel) :
    (s.onKilled).1.currentExecution = none ∧
    (s.onKilled).1.executionQueue = [] ∧
    (s.onKilled).1.child = none ∧
    willExecIds (s.onKilled).2 = [] ∧
    (∀ e, s.currentExecution = some e →
       endEvents (s.onKilled).2 = [(e.cellId, false)]) ∧
    (s.currentExecution = none → (s.onKilled).2 = []) ∧
    ((s.onKilled).1.onKilled = ((s.onKilled).1, [])) := by
  unfold HolKernel.onKilled HolKernel.cancelAll
  cases hcur : s.currentExecution with
  | none =>
    refine ⟨rfl, rfl, rfl, rfl, ?_, fun _ => rfl, rfl⟩
    intro e he
    exact Option.noConfusion he
  | some e =>
    refine ⟨rfl, rfl, rfl, willExecIds_endExec _ _, ?_, ?_, rfl⟩
    · intro e' he'
      injection he' with h
      subst h
      exact endEvents_markFail_endExec _
    · intro h
      exact Option.noConfusion h

/-- **C5 witness**. -/
theorem onKilled_cancels_idempotent_witness :
    (HolKernel.onKilled ⟨some ⟨some 42, false, none⟩, some ⟨7, [], true, false⟩,
        [⟨1, [], none⟩], 0⟩).1.child = none ∧
    endEvents (HolKernel.onKilled ⟨some ⟨some 42, false, none⟩, some ⟨7, [], true, false⟩,
        [⟨1, [], none⟩], 0⟩).2 = [(7, false)] ∧
    ((HolKernel.onKilled ⟨some ⟨some 42, false, none⟩, some ⟨7, [], true, false⟩,
        [⟨1, [], none⟩], 0⟩).1.onKilled =
      ((HolKernel.onKilled ⟨some ⟨some 42, false, none⟩, some ⟨7, [], true, false⟩,
        [⟨1, [], none⟩], 0⟩).1, [])) := by
  have h := onKilled_cancels_idempotent
    ⟨some ⟨some 42, false, none⟩, some ⟨7, [], true, false⟩, [⟨1, [], none⟩], 0⟩
  exact ⟨h.2.2.1, h.2.2.2.2.1 ⟨7, [], true, false⟩ rfl, h.2.2.2.2.2.2⟩

/-- **C7 counterexample**: the message attached to an execution submitted
while no process is live is `HOL process is not started`, not the claimed
`process is not started`. -/
theorem runCell_idle_message_counterexample :
    (HolKernel.runCell ⟨none, none, [], 0⟩ ⟨0, [], none⟩).2 =
      [Ev.willExec 0, Ev.startEv 0, Ev.outItem 0 true notStartedMsg,
       Ev.endEv 0 false] ∧
    notStartedMsg ≠ "process is not started".toList := by
  exact ⟨rfl, by decide⟩

/-- **C7** (amended): submitting a cell while the kernel has no child
process fails that single execution synchronously with the fixed stderr
message `HOL process is not started`, writes nothing to the channel, and
leaves the kernel state exactly as it was. -/
theorem runCell_idle (s : HolKernel) (cell : Cell)
    (hcur : s.currentExecution = none) (hchild : s.child = none)
    (hq : s.executionQueue = []) :
    s.runCell cell =
      (s, [Ev.willExec cell.id, Ev.startEv cell.id,
           Ev.outItem cell.id true notStartedMsg, Ev.endEv cell.id false]) ∧
    writeEvents (s.runCell cell).2 = [] ∧
    notStartedMsg = "HOL process is not started".toList := by
  obtain ⟨child, cur, q, ord⟩ := s
  simp only at hcur hchild hq
  subst hcur; subst hchild; subst hq
  refine ⟨rfl, ?_, rfl⟩
  simp [HolKernel.runCell, HolKernel.runCellF, HolKernel.finishF, HolKernel.sync,
    Execution.markFail, Execution.endExec, Execution.output, writeEvents]

/-- **C7 witness**. -/
theorem runCell_idle_witness :
    HolKernel.runCell ⟨none, none, [], 3⟩ ⟨5, ['x'], none⟩ =
      (⟨none, none, [], 3⟩,
       [Ev.willExec 5, Ev.startEv 5, Ev.outItem 5 true notStartedMsg,
        Ev.endEv 5 false]) ∧
    writeEvents (HolKernel.runCell ⟨none, none, [], 3⟩ ⟨5, ['x'], none⟩).2 = [] := by
  have h := runCell_idle ⟨none, none, [], 3⟩ ⟨5, ['x'], none⟩ rfl rfl rfl
  exact ⟨h.1, h.2.1⟩

/-- **C9 counterexample**: `HolTerminal.sendRaw`, called with no child
handle, throws (a TypeError from the `this.child!.stdin` member access)
instead of failing silently. -/
theorem terminal_sendRaw_throws_counterexample :
    HolTerminal.sendRaw none ['x'] = JsOutcome.typeError ∧
    (∀ evs, HolTerminal.sendRaw none ['x'] ≠ JsOutcome.ok evs) := by
  refine ⟨rfl, ?_⟩
  intro evs h
  cases h

/-- **C9** (amended): the kernel's `sendRaw`, called while no child process
exists, logs an error and returns without writing anything (it cannot
throw: the write is guarded by the `child` check); the terminal's
`sendRaw` is not guarded and throws when the child handle is absent. -/
theorem sendRaw_noChild (text : List Char) :
    (∀ s : HolKernel, s.child = none →
       s.sendRaw text = [Ev.errlog "HOL session is not started".toList] ∧
       writeEvents (s.sendRaw text) = []) ∧
    HolTerminal.sendRaw none text = JsOutcome.typeError ∧
    (∀ c, HolTerminal.sendRaw (some c) text = JsOutcome.ok [Ev.write text]) := by
  refine ⟨?_, rfl, fun c => rfl⟩
  intro s hch
  unfold HolKernel.sendRaw
  rw [hch]
  exact ⟨rfl, rfl⟩

/-- **C9 witness**. -/
theorem sendRaw_noChild_witness :
    HolKernel.sendRaw ⟨none, none, [], 0⟩ ['y'] =
      [Ev.errlog "HOL session is not started".toList] ∧
    HolTerminal.sendRaw none ['y'] = JsOutcome.typeError := by
  have h := sendRaw_noChild ['y']
  exact ⟨(h.1 ⟨none, none, [], 0⟩ rfl).1, h.2.1⟩

/-- **C6 counterexample**: calling an `Execution`'s `end` twice notifies
the owner twice — the downstream notification count is 2, not 1. -/
theorem endExec_twice_counterexample :
    ¬ countEndEv ((Execution.endExec ⟨0, ['x'], true, false⟩ none).2 ++
        (Execution.endExec (Execution.endExec ⟨0, ['x'], true, false⟩ none).1 none).2) = 1 := by
  decide

/-- **C6** (amended): `end()` notifies the owner on every invocation — a
second call re-notifies, so the notification count after a double
invocation is two — but the repeated notification reports the same
success flag and leaves the recorded success flag unchanged.  (At-most-once
ending is enforced one level up: `finish` and `cancelAll` end only a
present `currentExecution` and clear the binding in the same step.) -/
theorem endExec_twice (e : Execution) (succ : Option Bool) :
    countEndEv (e.endExec succ).2 = 1 ∧
    countEndEv ((e.endExec succ).1.endExec succ).2 = 1 ∧
    endEvents ((e.endExec succ).1.endExec succ).2 = endEvents (e.endExec succ).2 ∧
    ((e.endExec succ).1.endExec succ).1.success = (e.endExec succ).1.success := by
  refine ⟨countEndEv_endExec e succ, countEndEv_endExec _ succ, ?_, ?_⟩
  · unfold Execution.endExec Execution.output
    by_cases hb : e.buffer ≠ [] <;> by_cases hc : containsSub errorMarker e.buffer <;>
      cases succ <;> simp [hb, hc, endEvents]
  · unfold Execution.endExec Execution.output
    by_cases hb : e.buffer ≠ [] <;> by_cases hc : containsSub errorMarker e.buffer <;>
      cases succ <;> simp [hb, hc]

/-- **C6 witness**. -/
theorem endExec_twice_witness :
    countEndEv ((Execution.endExec ⟨3, ['a'], true, false⟩ none).1.endExec none).2 = 1 ∧
    endEvents ((Execution.endExec ⟨3, ['a'], true, false⟩ none).1.endExec none).2 =
      endEvents (Execution.endExec ⟨3, ['a'], true, false⟩ none).2 := by
  have h := endExec_twice ⟨3, ['a'], true, false⟩ none
  exact ⟨h.2.1, h.2.2.1⟩

theorem routeEvents_execAppendOutput (e : Execution) (str : List Char) (err : Bool) :
    routeEvents (e.appendOutput str err).2 = [] := by
  unfold Execution.appendOutput Execution.output
  cases h : lastIdxOf '\n' str with
  | none => rfl
  | some pos =>
    by_cases hc : err || containsSub errorMarker (e.buffer ++ str.take pos) <;>
      simp only [hc, if_true, if_false] <;> rfl

theorem routeEvents_cancelAll (s : HolKernel) : routeEvents (s.cancelAll).2 = [] := by
  unfold HolKernel.cancelAll
  cases s.currentExecution with
  | none => rfl
  | some e => exact routeEvents_endExec _ _

theorem routeEvents_onKilled (s : HolKernel) : routeEvents (s.onKilled).2 = [] := by
  unfold HolKernel.onKilled
  exact routeEvents_cancelAll s

theorem routeEvents_sync (s : HolKernel) : routeEvents (s.sync).2 = [] := by
  unfold HolKernel.sync
  cases hch : s.child with
  | none => rfl
  | some c =>
    show routeEvents (if c.deadish = true then s.onKilled else (s, [])).2 = []
    by_cases hd : c.deadish = true
    · rw [if_pos hd]
      exact routeEvents_onKilled s
    · rw [if_neg hd]
      rfl

theorem routeEvents_sendRaw (s : HolKernel) (text : List Char) :
    routeEvents (s.sendRaw text) = [] := by
  unfold HolKernel.sendRaw
  cases h : s.child.isSome with
  | true => rfl
  | false => rfl

/-- Neither `runCell` nor `finish` (nor anything they call) fires a routing
event: routing happens only in the kernel's `appendOutput`. -/
theorem routeEvents_kernelF (fuel : Nat) :
    (∀ s c, routeEvents (HolKernel.runCellF fuel s c).2 = []) ∧
    (∀ s, routeEvents (HolKernel.finishF fuel s).2 = []) := by
  induction fuel with
  | zero =>
    exact ⟨fun s c => rfl, fun s => rfl⟩
  | succ n ih =>
    constructor
    · intro s c
      simp only [HolKernel.runCellF]
      cases hcur : s.currentExecution with
      | some e => rfl
      | none =>
        cases hch : (HolKernel.sync s).1.child with
        | some ch =>
          simp only [hch]
          rw [routeEvents_append, routeEvents_append, routeEvents_sync,
            routeEvents_sendRaw]
          rfl
        | none =>
          simp only [hch]
          rw [routeEvents_append, routeEvents_append, routeEvents_sync, ih.2]
          rfl
    · intro s
      simp only [HolKernel.finishF]
      cases hcur : s.currentExecution with
      | none => rfl
      | some e =>
        cases hq : s.executionQueue with
        | nil => exact routeEvents_endExec _ _
        | cons c rest =>
          rw [routeEvents_append, routeEvents_endExec, ih.1]
          rfl

theorem routeEvents_finish (s : HolKernel) : routeEvents (s.finish).2 = [] :=
  (routeEvents_kernelF _).2 s

theorem routeEvents_cons_execAppend (cid : Nat) (str : List Char) (l : List Ev) :
    routeEvents (Ev.execAppend cid str :: l) = Ev.execAppend cid str :: routeEvents l :=
  rfl

theorem routeEvents_overflow (str : List Char) (err : Bool) :
    routeEvents [Ev.overflow str err] = [Ev.overflow str err] :=
  rfl

/-- The text routed for a stdout chunk: the chunk minus the trailing NUL
sentinel byte when present (the sentinel is the request framing echoed by
`hol --zero`, stripped by the data listener before routing). -/
def stdoutPayload (data : List Char) : List Char :=
  if data.getLast? = some sentinelChar then data.dropLast else data

/-- **C1**: output demultiplexing.  For every nonempty chunk arriving on
stdout or stderr after startup, the chunk's text (for stdout: minus the
trailing sentinel byte when present) is handed to the current `Execution`'s
`appendOutput` if and only if a current execution exists, and is otherwise
fired as exactly one `OverflowEvent` (error-flagged for stderr); in either
case there is exactly one routing event and it carries the whole payload —
never both destinations, never dropped. -/
theorem output_demux (s : HolKernel) (data : List Char) (hne : data ≠ []) :
    (∀ e, s.currentExecution = some e →
       routeEvents (s.stdoutData data).2 = [Ev.execAppend e.cellId (stdoutPayload data)] ∧
       routeEvents (s.stderrData data).2 = [Ev.execAppend e.cellId data]) ∧
    (s.currentExecution = none →
       routeEvents (s.stdoutData data).2 = [Ev.overflow (stdoutPayload data) false] ∧
       routeEvents (s.stderrData data).2 = [Ev.overflow data true]) := by
  constructor
  · intro e hcur
    constructor
    · unfold HolKernel.stdoutData
      rw [if_neg hne]
      by_cases hs : data.getLast? = some sentinelChar
      · rw [if_pos hs]
        simp only [HolKernel.appendOutput, hcur]
        rw [routeEvents_append, routeEvents_cons_execAppend,
          routeEvents_execAppendOutput, routeEvents_finish]
        simp [stdoutPayload, hs]
      · rw [if_neg hs]
        simp only [HolKernel.appendOutput, hcur]
        rw [routeEvents_cons_execAppend, routeEvents_execAppendOutput]
        simp [stdoutPayload, hs]
    · unfold HolKernel.stderrData
      rw [if_neg hne]
      simp only [HolKernel.appendOutput, hcur]
      rw [routeEvents_cons_execAppend, routeEvents_execAppendOutput]
  · intro hcur
    constructor
    · unfold HolKernel.stdoutData
      rw [if_neg hne]
      by_cases hs : data.getLast? = some sentinelChar
      · rw [if_pos hs]
        simp only [HolKernel.appendOutput, hcur]
        rw [routeEvents_append, routeEvents_overflow, routeEvents_finish]
        simp [stdoutPayload, hs]
      · rw [if_neg hs]
        simp only [HolKernel.appendOutput, hcur]
        rw [routeEvents_overflow]
        simp [stdoutPayload, hs]
    · unfold HolKernel.stderrData
      rw [if_neg hne]
      simp only [HolKernel.appendOutput, hcur]
      rw [routeEvents_overflow]

/-- **C1 witness**. -/
theorem output_demux_witness :
    routeEvents (HolKernel.stdoutData
        ⟨some ⟨some 1, false, none⟩, some ⟨7, [], true, false⟩, [], 0⟩
        ('a' :: 'b' :: [sentinelChar])).2 =
      [Ev.execAppend 7 ['a', 'b']] ∧
    routeEvents (HolKernel.stderrData
        ⟨some ⟨some 1, false, none⟩, none, [], 0⟩ ['c', 'd']).2 =
      [Ev.overflow ['c', 'd'] true] := by
  have h1 := (output_demux
    ⟨some ⟨some 1, false, none⟩, some ⟨7, [], true, false⟩, [], 0⟩
    ('a' :: 'b' :: [sentinelChar]) (by decide)).1 ⟨7, [], true, false⟩ rfl
  have h2 := (output_demux
    ⟨some ⟨some 1, false, none⟩, none, [], 0⟩ ['c', 'd'] (by decide)).2 rfl
  exact ⟨h1.1, h2.2⟩

/-! ### Serialization (C2) -/

theorem sync_live (s : HolKernel) (ch : Child) (hchild : s.child = some ch)
    (hlive : ch.deadish = false) : s.sync = (s, []) := by
  unfold HolKernel.sync
  rw [hchild]
  show (if ch.deadish = true then s.onKilled else (s, [])) = (s, [])
  rw [if_neg (by rw [hlive]; exact Bool.false_ne_true)]

theorem runCellF_queueFull (fuel : Nat) (s : HolKernel) (cell : Cell)
    (e : Execution) (hcur : s.currentExecution = some e) :
    HolKernel.runCellF (fuel + 1) s cell =
      ({s with executionQueue := s.executionQueue ++ [cell]}, []) := by
  simp only [HolKernel.runCellF, hcur]

theorem runCellF_live (fuel : Nat) (s : HolKernel) (cell : Cell) (ch : Child)
    (hcur : s.currentExecution = none) (hchild : s.child = some ch)
    (hlive : ch.deadish = false) :
    HolKernel.runCellF (fuel + 1) s cell =
      ({s with currentExecution := some ⟨cell.id, [], true, false⟩,
               executionOrder := s.executionOrder + 1},
       [Ev.willExec cell.id, Ev.startEv cell.id,
        Ev.write ((cell.fullContent.getD cell.text) ++ [sentinelChar])]) := by
  obtain ⟨child, cur, q, ord⟩ := s
  replace hcur : cur = none := hcur
  replace hchild : child = some ch := hchild
  subst hcur
  subst hchild
  simp [HolKernel.runCellF, HolKernel.sync, HolKernel.sendRaw, hlive]

theorem finishF_nil (fuel : Nat) (s : HolKernel) (e : Execution)
    (hcur : s.currentExecution = some e) (hq : s.executionQueue = []) :
    HolKernel.finishF (fuel + 1) s =
      ({s with currentExecution := none}, (e.endExec none).2) := by
  obtain ⟨child, cur, q, ord⟩ := s
  replace hcur : cur = some e := hcur
  replace hq : q = [] := hq
  subst hcur
  subst hq
  rfl

theorem finishF_promote (fuel : Nat) (s : HolKernel) (e : Execution)
    (c0 : Cell) (rest : List Cell) (ch : Child)
    (hcur : s.currentExecution = some e) (hq : s.executionQueue = c0 :: rest)
    (hchild : s.child = some ch) (hlive : ch.deadish = false) :
    HolKernel.finishF (fuel + 2) s =
      (⟨some ch, some ⟨c0.id, [], true, false⟩, rest, s.executionOrder + 1⟩,
       (e.endExec none).2 ++
         [Ev.willExec c0.id, Ev.startEv c0.id,
          Ev.write ((c0.fullContent.getD c0.text) ++ [sentinelChar])]) := by
  obtain ⟨child, cur, q, ord⟩ := s
  replace hcur : cur = some e := hcur
  replace hq : q = c0 :: rest := hq
  replace hchild : child = some ch := hchild
  subst hcur
  subst hq
  subst hchild
  show HolKernel.finishF (fuel + 1 + 1) _ = _
  simp only [HolKernel.finishF]
  rw [runCellF_live fuel _ c0 ch rfl rfl hlive]

/-- Iterate `finish` (the completion path) `n` times. -/
def finishN : Nat → HolKernel → HolKernel × List Ev
  | 0, s => (s, [])
  | k + 1, s =>
    let p := s.finish
    let q := finishN k p.1
    (q.1, p.2 ++ q.2)

theorem drain_fifo (q : List Cell) : ∀ (s : HolKernel) (e : Execution) (ch : Child),
    s.child = some ch → ch.deadish = false → s.currentExecution = some e →
    s.executionQueue = q →
    willExecIds (finishN (q.length + 1) s).2 = q.map Cell.id ∧
    writeEvents (finishN (q.length + 1) s).2 =
      q.map (fun c => (c.fullContent.getD c.text) ++ [sentinelChar]) ∧
    (finishN (q.length + 1) s).1.currentExecution = none ∧
    (finishN (q.length + 1) s).1.executionQueue = [] := by
  induction q with
  | nil =>
    intro s e ch hch hlive hcur hq
    have hfin : s.finish = ({s with currentExecution := none}, (e.endExec none).2) := by
      show HolKernel.finishF (2 * s.executionQueue.length + 1 + 1) s = _
      exact finishF_nil _ s e hcur hq
    have hstep : finishN (([] : List Cell).length + 1) s =
        ((s.finish).1, (s.finish).2 ++ []) := rfl
    rw [hstep, hfin]
    refine ⟨?_, ?_, rfl, hq⟩
    · rw [List.append_nil, willExecIds_endExec]
      rfl
    · rw [List.append_nil, writeEvents_endExec]
      rfl
  | cons c0 rest ih =>
    intro s e ch hch hlive hcur hq
    have hfin : s.finish =
        (⟨some ch, some ⟨c0.id, [], true, false⟩, rest, s.executionOrder + 1⟩,
         (e.endExec none).2 ++
           [Ev.willExec c0.id, Ev.startEv c0.id,
            Ev.write ((c0.fullContent.getD c0.text) ++ [sentinelChar])]) := by
      show HolKernel.finishF (2 * s.executionQueue.length + 2) s = _
      have : 2 * s.executionQueue.length + 2 = 2 * rest.length + 2 + 2 := by
        rw [hq]; simp [List.length_cons]; ring
      rw [this]
      exact finishF_promote _ s e c0 rest ch hcur hq hch hlive
    have ihr := ih ⟨some ch, some ⟨c0.id, [], true, false⟩, rest, s.executionOrder + 1⟩
      ⟨c0.id, [], true, false⟩ ch rfl hlive rfl rfl
    show willExecIds (finishN ((c0 :: rest).length + 1) s).2 = _ ∧ _
    have hstep : finishN ((c0 :: rest).length + 1) s =
        ((finishN (rest.length + 1)
            ⟨some ch, some ⟨c0.id, [], true, false⟩, rest, s.executionOrder + 1⟩).1,
         (s.finish).2 ++
           (finishN (rest.length + 1)
            ⟨some ch, some ⟨c0.id, [], true, false⟩, rest, s.executionOrder + 1⟩).2) := by
      show finishN (rest.length + 1 + 1) s = _
      simp only [finishN]
      rw [hfin]
    rw [hstep]
    refine ⟨?_, ?_, ihr.2.2.1, ihr.2.2.2⟩
    · rw [willExecIds_append, hfin]
      rw [willExecIds_append, willExecIds_endExec, ihr.1]
      rfl
    · rw [writeEvents_append, hfin]
      rw [writeEvents_append, writeEvents_endExec, ihr.2.1]
      rfl

/-- **C2**: serialization.  While an execution is current, a submitted cell
is only appended at the tail of the pending queue (no event fires, no
reordering); when an execution finishes, the head of the queue is promoted
to current and written to the process in the same step; and draining the
whole queue starts the queued cells in exactly FIFO submission order (both
the `willExec` firings and the channel writes are in queue order), ending
with no current execution and an empty queue.  At most one execution is
current at any instant by construction (`currentExecution` is a single
optional slot). -/
theorem runCell_serializes (s : HolKernel) (e : Execution) (ch : Child)
    (cell : Cell) (hchild : s.child = some ch) (hlive : ch.deadish = false)
    (hcur : s.currentExecution = some e) :
    (s.runCell cell = ({s with executionQueue := s.executionQueue ++ [cell]}, [])) ∧
    (∀ c0 rest, s.executionQueue = c0 :: rest →
       (s.finish).1.currentExecution = some ⟨c0.id, [], true, false⟩ ∧
       (s.finish).1.executionQueue = rest ∧
       willExecIds (s.finish).2 = [c0.id] ∧
       writeEvents (s.finish).2 =
         [(c0.fullContent.getD c0.text) ++ [sentinelChar]]) ∧
    willExecIds (finishN (s.executionQueue.length + 1) s).2 =
      s.executionQueue.map Cell.id ∧
    writeEvents (finishN (s.executionQueue.length + 1) s).2 =
      s.executionQueue.map (fun c => (c.fullContent.getD c.text) ++ [sentinelChar]) ∧
    (finishN (s.executionQueue.length + 1) s).1.currentExecution = none ∧
    (finishN (s.executionQueue.length + 1) s).1.executionQueue = [] := by
  refine ⟨?_, ?_, drain_fifo s.executionQueue s e ch hchild hlive hcur rfl⟩
  · show HolKernel.runCellF (2 * s.executionQueue.length + 1 + 1) s cell = _
    exact runCellF_queueFull _ s cell e hcur
  · intro c0 rest hq
    have hfin : s.finish =
        (⟨some ch, some ⟨c0.id, [], true, false⟩, rest, s.executionOrder + 1⟩,
         (e.endExec none).2 ++
           [Ev.willExec c0.id, Ev.startEv c0.id,
            Ev.write ((c0.fullContent.getD c0.text) ++ [sentinelChar])]) := by
      show HolKernel.finishF (2 * s.executionQueue.length + 2) s = _
      have : 2 * s.executionQueue.length + 2 = 2 * rest.length + 2 + 2 := by
        rw [hq]; simp [List.length_cons]; ring
      rw [this]
      exact finishF_promote _ s e c0 rest ch hcur hq hchild hlive
    rw [hfin]
    refine ⟨rfl, rfl, ?_, ?_⟩
    · rw [willExecIds_append, willExecIds_endExec]
      rfl
    · rw [writeEvents_append, writeEvents_endExec]
      rfl

/-- **C2 witness**: two queued cells drain in submission order. -/
theorem runCell_serializes_witness :
    HolKernel.runCell
        ⟨some ⟨some 9, false, none⟩, some ⟨0, [], true, false⟩,
         [⟨1, ['a'], none⟩], 1⟩ ⟨2, ['b'], none⟩ =
      (⟨some ⟨some 9, false, none⟩, some ⟨0, [], true, false⟩,
        [⟨1, ['a'], none⟩, ⟨2, ['b'], none⟩], 1⟩, []) ∧
    willExecIds (finishN 3
        ⟨some ⟨some 9, false, none⟩, some ⟨0, [], true, false⟩,
         [⟨1, ['a'], none⟩, ⟨2, ['b'], none⟩], 1⟩).2 = [1, 2] := by
  have h1 := runCell_serializes
    ⟨some ⟨some 9, false, none⟩, some ⟨0, [], true, false⟩, [⟨1, ['a'], none⟩], 1⟩
    ⟨0, [], true, false⟩ ⟨some 9, false, none⟩ ⟨2, ['b'], none⟩ rfl rfl rfl
  have h2 := runCell_serializes
    ⟨some ⟨some 9, false, none⟩, some ⟨0, [], true, false⟩,
     [⟨1, ['a'], none⟩, ⟨2, ['b'], none⟩], 1⟩
    ⟨0, [], true, false⟩ ⟨some 9, false, none⟩ ⟨2, ['b'], none⟩ rfl rfl rfl
  exact ⟨h1.1, h2.2.2.1⟩

/-! ### Startup readiness (C8) -/

/-- A nonempty stderr chunk (the only thing that can reject `start`). -/
def isErrChunk : SChunk → Bool
  | SChunk.fromErr d => decide (d ≠ [])
  | SChunk.fromOut _ => false

/-- A nonempty stdout chunk ending in the readiness sentinel (the only
thing that can resolve `start`). -/
def isSentinelChunk : SChunk → Bool
  | SChunk.fromOut d => decide (d ≠ []) && decide (d.getLast? = some sentinelChar)
  | SChunk.fromErr _ => false

theorem runStartup_cons (st : StartupS) (ch : SChunk) (rest : List SChunk) :
    runStartup st (ch :: rest) =
      ((runStartup (startupStep st ch).1 rest).1,
       (startupStep st ch).2 ++ (runStartup (startupStep st ch).1 rest).2) := rfl

theorem startupStep_err_empty (st : StartupS) (hl : st.listening = true) :
    startupStep st (SChunk.fromErr []) = (st, []) := by
  unfold startupStep
  rw [hl]
  rfl

theorem startupStep_out_empty (st : StartupS) (hl : st.listening = true) :
    startupStep st (SChunk.fromOut []) = (st, []) := by
  unfold startupStep
  rw [hl]
  rfl

theorem startupStep_out_buffer (st : StartupS) (d : List Char)
    (hl : st.listening = true) (hd : d ≠ [])
    (hs : ¬ d.getLast? = some sentinelChar) :
    startupStep st (SChunk.fromOut d) = ({st with buf := st.buf ++ [d]}, []) := by
  unfold startupStep
  rw [hl]
  show (if d = [] then (st, [])
        else if d.getLast? = some sentinelChar then _ else _) = _
  rw [if_neg hd, if_neg hs]

theorem startupStep_err_rejects (st : StartupS) (d : List Char)
    (hl : st.listening = true) (hd : d ≠ []) (ho : st.outcome = none) :
    startupStep st (SChunk.fromErr d) =
      ({st with buf := [],
                outcome := some (Settle.rejected (joinSep [] (st.buf ++ [d])))},
       [Ev.overflow (joinSep [] (st.buf ++ [d])) true]) := by
  unfold startupStep
  rw [hl]
  show (if d = [] then (st, []) else _) = _
  rw [if_neg hd]
  simp [ho]

theorem startupStep_out_resolves (st : StartupS) (d : List Char)
    (hl : st.listening = true) (hd : d ≠ [])
    (hs : d.getLast? = some sentinelChar) (ho : st.outcome = none) :
    startupStep st (SChunk.fromOut d) =
      ({st with listening := false, outcome := some Settle.resolved},
       finishOpenEvents (joinSep [] (st.buf ++ [d.dropLast]))) := by
  unfold startupStep
  rw [hl]
  show (if d = [] then (st, [])
        else if d.getLast? = some sentinelChar then _ else _) = _
  rw [if_neg hd, if_pos hs]
  simp [ho]

/-- A promise settles at most once: a settled outcome is never changed. -/
theorem startupStep_outcome_mono (st : StartupS) (ch : SChunk) (x : Settle)
    (h : st.outcome = some x) : (startupStep st ch).1.outcome = some x := by
  unfold startupStep
  by_cases hl : st.listening = false
  · rw [if_pos hl]
    exact h
  · rw [if_neg hl]
    cases ch with
    | fromErr d =>
      show ((if d = [] then (st, ([] : List Ev)) else _).1.outcome = some x)
      by_cases hd : d = []
      · rw [if_pos hd]
        exact h
      · rw [if_neg hd]
        simp [h]
    | fromOut d =>
      show ((if d = [] then (st, ([] : List Ev)) else _).1.outcome = some x)
      by_cases hd : d = []
      · rw [if_pos hd]
        exact h
      · rw [if_neg hd]
        show ((if d.getLast? = some sentinelChar then _ else _ :
            StartupS × List Ev).1.outcome = some x)
        by_cases hs : d.getLast? = some sentinelChar
        · rw [if_pos hs]
          simp [h]
        · rw [if_neg hs]
          exact h

theorem runStartup_outcome_mono (chunks : List SChunk) :
    ∀ (st : StartupS) (x : Settle), st.outcome = some x →
      (runStartup st chunks).1.outcome = some x := by
  induction chunks with
  | nil => intro st x h; exact h
  | cons ch rest ih =>
    intro st x h
    rw [runStartup_cons]
    exact ih _ x (startupStep_outcome_mono st ch x h)

theorem runStartup_resolved_needs_sentinel (chunks : List SChunk) :
    ∀ st : StartupS, st.listening = true → st.outcome = none →
      (runStartup st chunks).1.outcome = some Settle.resolved →
      ∃ pre d suf, chunks = pre ++ SChunk.fromOut d :: suf ∧ d ≠ [] ∧
        d.getLast? = some sentinelChar ∧ ∀ ch ∈ pre, isErrChunk ch = false := by
  induction chunks with
  | nil =>
    intro st hl ho hres
    have h' : st.outcome = some Settle.resolved := hres
    rw [ho] at h'
    cases h'
  | cons ch rest ih =>
    intro st hl ho hres
    rw [runStartup_cons] at hres
    cases ch with
    | fromErr d =>
      by_cases hd : d = []
      · subst hd
        rw [startupStep_err_empty st hl] at hres
        obtain ⟨pre, d', suf, h1, h2, h3, h4⟩ := ih st hl ho hres
        refine ⟨SChunk.fromErr [] :: pre, d', suf, by simp [h1], h2, h3, ?_⟩
        intro c hc
        rcases List.mem_cons.mp hc with rfl | hc
        · simp [isErrChunk]
        · exact h4 c hc
      · rw [startupStep_err_rejects st d hl hd ho] at hres
        have hmono := runStartup_outcome_mono rest ({st with buf := [], outcome := some (Settle.rejected (joinSep [] (st.buf ++ [d])))} : StartupS) (Settle.rejected (joinSep [] (st.buf ++ [d]))) rfl
        rw [hmono] at hres
        cases hres
    | fromOut d =>
      by_cases hd : d = []
      · subst hd
        rw [startupStep_out_empty st hl] at hres
        obtain ⟨pre, d', suf, h1, h2, h3, h4⟩ := ih st hl ho hres
        refine ⟨SChunk.fromOut [] :: pre, d', suf, by simp [h1], h2, h3, ?_⟩
        intro c hc
        rcases List.mem_cons.mp hc with rfl | hc
        · simp [isErrChunk]
        · exact h4 c hc
      · by_cases hs : d.getLast? = some sentinelChar
        · exact ⟨[], d, rest, rfl, hd, hs, fun c hc => absurd hc (List.not_mem_nil c)⟩
        · rw [startupStep_out_buffer st d hl hd hs] at hres
          obtain ⟨pre, d', suf, h1, h2, h3, h4⟩ :=
            ih {st with buf := st.buf ++ [d]} hl ho hres
          refine ⟨SChunk.fromOut d :: pre, d', suf, by simp [h1], h2, h3, ?_⟩
          intro c hc
          rcases List.mem_cons.mp hc with rfl | hc
          · simp [isErrChunk]
          · exact h4 c hc

theorem runStartup_stderr_rejects (pre : List SChunk) :
    ∀ st : StartupS, st.listening = true → st.outcome = none →
      (∀ ch ∈ pre, isErrChunk ch = false ∧ isSentinelChunk ch = false) →
      ∀ (d : List Char) (suf : List SChunk), d ≠ [] →
        ∃ s, (runStartup st (pre ++ SChunk.fromErr d :: suf)).1.outcome =
               some (Settle.rejected s) ∧
             Ev.overflow s true ∈ (runStartup st (pre ++ SChunk.fromErr d :: suf)).2 := by
  induction pre with
  | nil =>
    intro st hl ho _ d suf hd
    refine ⟨joinSep [] (st.buf ++ [d]), ?_, ?_⟩
    · rw [List.nil_append, runStartup_cons, startupStep_err_rejects st d hl hd ho]
      exact runStartup_outcome_mono suf _ _ rfl
    · rw [List.nil_append, runStartup_cons, startupStep_err_rejects st d hl hd ho]
      exact List.mem_append_left _ (List.mem_singleton.mpr rfl)
  | cons ch pre' ih =>
    intro st hl ho hins d suf hd
    have hch := hins ch (List.mem_cons_self ch pre')
    have hins' : ∀ c ∈ pre', isErrChunk c = false ∧ isSentinelChunk c = false :=
      fun c hc => hins c (List.mem_cons_of_mem ch hc)
    cases ch with
    | fromErr d0 =>
      have hd0 : d0 = [] := by
        have := hch.1
        simpa [isErrChunk] using this
      subst hd0
      rw [List.cons_append, runStartup_cons, startupStep_err_empty st hl]
      obtain ⟨s, h1, h2⟩ := ih st hl ho hins' d suf hd
      exact ⟨s, h1, List.mem_append_right _ h2⟩
    | fromOut d0 =>
      by_cases hd0 : d0 = []
      · subst hd0
        rw [List.cons_append, runStartup_cons, startupStep_out_empty st hl]
        obtain ⟨s, h1, h2⟩ := ih st hl ho hins' d suf hd
        exact ⟨s, h1, List.mem_append_right _ h2⟩
      · have hs : ¬ d0.getLast? = some sentinelChar := by
          have := hch.2
          simp [isSentinelChunk, hd0] at this
          intro hcon
          exact this hcon
        rw [List.cons_append, runStartup_cons, startupStep_out_buffer st d0 hl hd0 hs]
        obtain ⟨s, h1, h2⟩ := ih {st with buf := st.buf ++ [d0]} hl ho hins' d suf hd
        exact ⟨s, h1, List.mem_append_right _ h2⟩

/-- **C8**: `start()` resolves only after the readiness sentinel.  Over any
sequence of startup chunks: if the promise resolved, some nonempty stdout
chunk ending in the NUL sentinel was received, with no nonempty stderr
chunk before it; and if a nonempty stderr chunk arrives with only
insignificant chunks before it (no sentinel yet, no earlier stderr), the
promise rejects and the offending accumulated output is surfaced as an
`OverflowEvent` flagged as an error. -/
theorem start_readiness :
    (∀ chunks, (runStartup startupInit chunks).1.outcome = some Settle.resolved →
       ∃ pre d suf, chunks = pre ++ SChunk.fromOut d :: suf ∧ d ≠ [] ∧
         d.getLast? = some sentinelChar ∧ ∀ ch ∈ pre, isErrChunk ch = false) ∧
    (∀ pre d suf, (∀ ch ∈ pre, isErrChunk ch = false ∧ isSentinelChunk ch = false) →
       d ≠ [] →
       ∃ s, (runStartup startupInit (pre ++ SChunk.fromErr d :: suf)).1.outcome =
              some (Settle.rejected s) ∧
            Ev.overflow s true ∈
              (runStartup startupInit (pre ++ SChunk.fromErr d :: suf)).2) :=
  ⟨fun chunks h => runStartup_resolved_needs_sentinel chunks startupInit rfl rfl h,
   fun pre d suf hins hd => runStartup_stderr_rejects pre startupInit rfl rfl hins d suf hd⟩

/-- **C8 witness**: a concrete resolving run and a concrete rejecting run. -/
theorem start_readiness_witness :
    (∃ pre d suf,
       [SChunk.fromOut ['a'], SChunk.fromOut ['b', sentinelChar]] =
         pre ++ SChunk.fromOut d :: suf ∧ d ≠ [] ∧
         d.getLast? = some sentinelChar ∧ ∀ ch ∈ pre, isErrChunk ch = false) ∧
    (∃ s, (runStartup startupInit
            [SChunk.fromOut ['a'], SChunk.fromErr ['b']]).1.outcome =
              some (Settle.rejected s) ∧
          Ev.overflow s true ∈
            (runStartup startupInit
              [SChunk.fromOut ['a'], SChunk.fromErr ['b']]).2) := by
  constructor
  · exact start_readiness.1 [SChunk.fromOut ['a'], SChunk.fromOut ['b', sentinelChar]]
      (by decide)
  · exact start_readiness.2 [SChunk.fromOut ['a']] ['b'] [] (by decide) (by decide)

/-! ### Prompt stripping in the timer-based kernel (C10) -/

namespace TimerKernel

/-- A (possibly empty) repetition of `"> "` / `"# "` prompts. -/
def promptPairs : List Char → Bool
  | [] => true
  | '>' :: ' ' :: rest => promptPairs rest
  | '#' :: ' ' :: rest => promptPairs rest
  | _ => false

theorem dropPrompts_decomp (s : List Char) :
    ∃ ps, promptPairs ps = true ∧ s = ps ++ dropPrompts s := by
  induction s using TimerKernel.dropPrompts.induct with
  | case1 rest ih =>
    obtain ⟨ps, h1, h2⟩ := ih
    refine ⟨'>' :: ' ' :: ps, ?_, ?_⟩
    · simpa [promptPairs] using h1
    · rw [show dropPrompts ('>' :: ' ' :: rest) = dropPrompts rest from rfl]
      simpa using h2
  | case2 rest ih =>
    obtain ⟨ps, h1, h2⟩ := ih
    refine ⟨'#' :: ' ' :: ps, ?_, ?_⟩
    · simpa [promptPairs] using h1
    · rw [show dropPrompts ('#' :: ' ' :: rest) = dropPrompts rest from rfl]
      simpa using h2
  | case3 cs h1 h2 =>
    refine ⟨[], rfl, ?_⟩
    rw [TimerKernel.dropPrompts.eq_def]
    split
    · exact absurd rfl (h1 _)
    · exact absurd rfl (h2 _)
    · simp

theorem endsWithPrompt_decomp (data : List Char)
    (h : endsWithPrompt data = true) :
    data = data.take (data.length - 2) ++ ['>', ' '] := by
  have htake : data.reverse.take 2 = [' ', '>'] := of_decide_eq_true h
  have hsplit : data.reverse = [' ', '>'] ++ data.reverse.drop 2 := by
    conv_lhs => rw [← List.take_append_drop 2 data.reverse]
    rw [htake]
  have hdata : data = (data.reverse.drop 2).reverse ++ ['>', ' '] := by
    conv_lhs => rw [← List.reverse_reverse data]
    rw [hsplit]
    simp
  rw [hdata]
  congr 1
  rw [show ((data.reverse.drop 2).reverse ++ ['>', ' ']).length - 2 =
      (data.reverse.drop 2).reverse.length by simp]
  rw [List.take_left]

end TimerKernel

/-- **C10**: in the timer-based kernel's stdout handler, bytes are silently
deleted before routing: the chunk decomposes as
`prompt-prefix ++ survivor ++ trailing-"> "`, where the trailing `"> "` is
removed exactly when the chunk ends with it, the prompt prefix is a
repetition of `"> "` / `"# "` and is nonempty only while the `outputStart`
flag is set; only the survivor is routed — to the current execution's cell
when it has one, otherwise as an overflow event — and a chunk whose
survivor is empty produces no output event at all. -/
theorem timer_stdout_strips (st : TimerKernel.TState) (data : List Char) :
    ∃ ps tl,
      TimerKernel.promptPairs ps = true ∧
      data = ps ++ (TimerKernel.stripChunk st.outputStart data).1 ++ tl ∧
      (st.outputStart = false → ps = []) ∧
      (if TimerKernel.endsWithPrompt data then tl = ['>', ' '] else tl = []) ∧
      (TimerKernel.handleStdout st data).2 =
        (if (TimerKernel.stripChunk st.outputStart data).1 = [] then []
         else match st.currentExecution with
              | some e =>
                match e.execId with
                | some cid =>
                  [Ev.outItem cid false (TimerKernel.stripChunk st.outputStart data).1]
                | none =>
                  [Ev.overflow (TimerKernel.stripChunk st.outputStart data).1 false]
              | none =>
                [Ev.overflow (TimerKernel.stripChunk st.outputStart data).1 false]) := by
  have hs1 : ∃ tl, data = (if TimerKernel.endsWithPrompt data
        then data.take (data.length - 2) else data) ++ tl ∧
      (if TimerKernel.endsWithPrompt data then tl = ['>', ' '] else tl = []) := by
    by_cases hp : TimerKernel.endsWithPrompt data = true
    · refine ⟨['>', ' '], ?_, ?_⟩
      · rw [if_pos hp]
        exact TimerKernel.endsWithPrompt_decomp data hp
      · rw [if_pos hp]
    · refine ⟨[], ?_, ?_⟩
      · rw [if_neg hp]
        simp
      · rw [if_neg hp]
  obtain ⟨tl, htl, htlc⟩ := hs1
  have hsc1 : (TimerKernel.stripChunk true data).1 =
      TimerKernel.dropPrompts
        (if TimerKernel.endsWithPrompt data then data.take (data.length - 2)
         else data) := rfl
  have hsc0 : (TimerKernel.stripChunk false data).1 =
      (if TimerKernel.endsWithPrompt data then data.take (data.length - 2)
       else data) := rfl
  have hmain : ∃ ps, TimerKernel.promptPairs ps = true ∧
      data = ps ++ (TimerKernel.stripChunk st.outputStart data).1 ++ tl ∧
      (st.outputStart = false → ps = []) := by
    by_cases ho : st.outputStart = true
    · obtain ⟨ps, hp1, hp2⟩ := TimerKernel.dropPrompts_decomp
        (if TimerKernel.endsWithPrompt data then data.take (data.length - 2) else data)
      refine ⟨ps, hp1, ?_, ?_⟩
      · rw [ho, hsc1]
        conv_lhs => rw [htl, hp2]
        try rw [List.append_assoc]
      · intro hfalse
        rw [ho] at hfalse
        cases hfalse
    · have ho' : st.outputStart = false := by
        cases hb : st.outputStart
        · rfl
        · exact absurd hb ho
      refine ⟨[], rfl, ?_, fun _ => rfl⟩
      rw [ho', hsc0]
      conv_lhs => rw [htl]
      simp
  obtain ⟨ps, hp1, hp2, hp3⟩ := hmain
  refine ⟨ps, tl, hp1, hp2, hp3, htlc, ?_⟩
  unfold TimerKernel.handleStdout
  by_cases hz : (TimerKernel.stripChunk st.outputStart data).1 = []
  · rw [if_pos hz]
    simp only [hz]
    rfl
  · rw [if_neg hz]
    simp only [if_neg hz]
    cases hcur : st.currentExecution with
    | none => rfl
    | some e =>
      obtain ⟨eid, esucc⟩ := e
      cases eid with
      | none => rfl
      | some cid => rfl

/-- **C10 witness**: with the flag set, `"> # > hi there> "` routes exactly
`"hi there"` to the current cell; the stripped prompts and trailing prompt
are accounted for by the decomposition. -/
theorem timer_stdout_strips_witness :
    (TimerKernel.handleStdout ⟨true, some ⟨some 4, true⟩⟩
        "> # > hi there> ".toList).2 = [Ev.outItem 4 false "hi there".toList] ∧
    ∃ ps tl, TimerKernel.promptPairs ps = true ∧
      "> # > hi there> ".toList = ps ++ "hi there".toList ++ tl := by
  obtain ⟨ps, tl, h1, h2, h3, h4, h5⟩ :=
    timer_stdout_strips ⟨true, some ⟨some 4, true⟩⟩ "> # > hi there> ".toList
  have hX : (TimerKernel.stripChunk
      (⟨true, some ⟨some 4, true⟩⟩ : TimerKernel.TState).outputStart
      "> # > hi there> ".toList).1 = "hi there".toList := by decide
  constructor
  · exact h5.trans (by decide)
  · rw [hX] at h2
    exact ⟨ps, tl, h1, h2⟩

/-! ### `processOpens` structure (C3) -/

/-- The names one `searchForward` round pushes:
`text.slice(contentStart, contentEnd)` processed by comment-stripping,
whitespace split, nonempty filter and sort. -/
def clauseOf (text : List Char) (m : SearchForwardResult) : List (List Char) :=
  clauseNames ((text.drop m.contentStart).take (m.contentEnd - m.contentStart))

/-- What one `searchForward` round leaves of the text:
`text.substring(0, matchStart + 1) + text.substring(contentEnd)` — note it
keeps the character at `matchStart` and the stop token. -/
def residueOf (text : List Char) (m : SearchForwardResult) : List Char :=
  text.take (m.matchStart + 1) ++ text.drop m.contentEnd

theorem matchOpenAt_length (cs : List Char) (l : Nat)
    (h : matchOpenAt cs = some l) : 5 ≤ cs.length := by
  simp only [matchOpenAt] at h
  by_cases ht : (cs.drop (wsCount cs)).take 4 = openKeyword
  · rw [if_pos ht] at h
    cases hrest : (cs.drop (wsCount cs)).drop 4 with
    | nil =>
      rw [hrest] at h
      cases h
    | cons c cst =>
      have h4 : ((cs.drop (wsCount cs)).drop 4).length =
          (cs.drop (wsCount cs)).length - 4 := by
        simp
        omega
      have h5 : (cs.drop (wsCount cs)).length = cs.length - wsCount cs := by simp
      rw [hrest] at h4
      simp only [List.length_cons] at h4
      omega
  · rw [if_neg ht] at h
    cases h

theorem findOpenAux_cons (i : Nat) (c : Char) (cs : List Char) :
    findOpenAux i (c :: cs) =
      match matchOpenAt (c :: cs) with
      | some l => some (i, l)
      | none => findOpenAux (i + 1) cs := rfl

theorem findOpenAux_length (cs : List Char) :
    ∀ i ms l, findOpenAux i cs = some (ms, l) → 5 ≤ cs.length := by
  induction cs with
  | nil =>
    intro i ms l h
    cases h
  | cons c rest ih =>
    intro i ms l h
    rw [findOpenAux_cons] at h
    cases hm : matchOpenAt (c :: rest) with
    | some l' => exact matchOpenAt_length _ _ hm
    | none =>
      rw [hm] at h
      have := ih (i + 1) ms l h
      simp only [List.length_cons]
      omega

theorem searchForwardOpen_length (text : List Char) (m : SearchForwardResult)
    (h : searchForwardOpen text = some m) : 5 ≤ text.length := by
  unfold searchForwardOpen at h
  cases hf : findOpen text with
  | none =>
    rw [hf] at h
    cases h
  | some p => exact findOpenAux_length text 0 p.1 p.2 (by rw [← hf]; rfl)

theorem processOpensLoop_succ (fuel : Nat) (text : List Char)
    (theories : List (List Char)) :
    processOpensLoop (fuel + 1) text theories =
      match searchForwardOpen text with
      | none => (text, theories)
      | some m =>
        processOpensLoop fuel
          (text.take (m.matchStart + 1) ++ text.drop m.contentEnd)
          (theories ++
            clauseNames ((text.drop m.contentStart).take
              (m.contentEnd - m.contentStart))) := rfl

theorem processOpensLoop_some (fuel : Nat) (text : List Char)
    (theories : List (List Char)) (m : SearchForwardResult)
    (h : searchForwardOpen text = some m) :
    processOpensLoop (fuel + 1) text theories =
      processOpensLoop fuel (residueOf text m) (theories ++ clauseOf text m) := by
  rw [processOpensLoop_succ, h]
  rfl

theorem processOpensLoop_none (fuel : Nat) (text : List Char)
    (theories : List (List Char)) (h : searchForwardOpen text = none) :
    processOpensLoop (fuel + 1) text theories = (text, theories) := by
  rw [processOpensLoop_succ, h]

/-- **C3 counterexample**: on `open fooTheory barTheory;` the synthesized
output ends in the residue `o;` — the first character of the matched open
keyword and the stop token survive — which differs from the claim's
"original text with the open-clause removed" (that would end in `;` or be
empty). -/
theorem processOpens_counterexample :
    processOpens "open fooTheory barTheory;".toList =
      joinSep ['\n'] [mkBanner ["barTheory".toList, "fooTheory".toList],
        mkLoads ["barTheory".toList, "fooTheory".toList],
        mkOpenDecl ["barTheory".toList, "fooTheory".toList],
        bannerDone, "o;".toList] ∧
    joinSep ['\n'] [mkBanner ["barTheory".toList, "fooTheory".toList],
        mkLoads ["barTheory".toList, "fooTheory".toList],
        mkOpenDecl ["barTheory".toList, "fooTheory".toList],
        bannerDone, "o;".toList] ≠
      joinSep ['\n'] [mkBanner ["barTheory".toList, "fooTheory".toList],
        mkLoads ["barTheory".toList, "fooTheory".toList],
        mkOpenDecl ["barTheory".toList, "fooTheory".toList],
        bannerDone, ";".toList] ∧
    joinSep ['\n'] [mkBanner ["barTheory".toList, "fooTheory".toList],
        mkLoads ["barTheory".toList, "fooTheory".toList],
        mkOpenDecl ["barTheory".toList, "fooTheory".toList],
        bannerDone, "o;".toList] ≠
      joinSep ['\n'] [mkBanner ["barTheory".toList, "fooTheory".toList],
        mkLoads ["barTheory".toList, "fooTheory".toList],
        mkOpenDecl ["barTheory".toList, "fooTheory".toList],
        bannerDone, "".toList] := by
  refine ⟨?_, ?_, ?_⟩
  · set_option maxRecDepth 4000 in decide
  · set_option maxRecDepth 4000 in decide
  · set_option maxRecDepth 4000 in decide

/-- **C3** (amended): for a text with exactly one open clause (with at
least one name), `processOpens` returns the loading banner, the
load-directives for the names sorted lexically, the quiet-toggled open
declaration, the done banner, and then the cleaned residue — the input
with the clause content removed but the character at the match start and
the stop token retained, blank-line runs collapsed and carriage returns
stripped; the emitted names are sorted; and on text with no open clause
`processOpens` returns just the cleaned text. -/
theorem processOpens_single (text : List Char) (m : SearchForwardResult)
    (h1 : searchForwardOpen text = some m)
    (h2 : searchForwardOpen (residueOf text m) = none)
    (h3 : clauseOf text m ≠ []) :
    processOpens text =
      joinSep ['\n'] [mkBanner (clauseOf text m), mkLoads (clauseOf text m),
        mkOpenDecl (clauseOf text m), bannerDone,
        cleanupText (residueOf text m)] ∧
    (clauseOf text m).Pairwise (fun a b => lexLe a b = true) ∧
    (∀ t : List Char, searchForwardOpen t = none → processOpens t = cleanupText t) := by
  refine ⟨?_, sortJS_sorted _, ?_⟩
  · have hlen : 5 ≤ text.length := searchForwardOpen_length text m h1
    obtain ⟨k, hk⟩ : ∃ k, text.length = k + 1 := ⟨text.length - 1, by omega⟩
    have hstep1 : processOpensLoop (text.length + 1) text [] =
        processOpensLoop text.length (residueOf text m) (clauseOf text m) := by
      rw [processOpensLoop_some text.length text [] m h1, List.nil_append]
    have hstep2 : processOpensLoop text.length (residueOf text m) (clauseOf text m) =
        (residueOf text m, clauseOf text m) := by
      rw [hk]
      exact processOpensLoop_none k (residueOf text m) (clauseOf text m) h2
    simp only [processOpens]
    rw [hstep1, hstep2, if_neg h3]
  · intro t ht
    have hstep : processOpensLoop (t.length + 1) t [] = (t, []) := by
      exact processOpensLoop_none t.length t [] ht
    simp only [processOpens]
    rw [hstep, if_pos rfl]

/-- **C3 witness**. -/
theorem processOpens_single_witness :
    processOpens " open fooTheory barTheory; val x = 1;".toList =
      joinSep ['\n']
        [mkBanner (clauseOf " open fooTheory barTheory; val x = 1;".toList ⟨0, 6, 26, 25⟩),
         mkLoads (clauseOf " open fooTheory barTheory; val x = 1;".toList ⟨0, 6, 26, 25⟩),
         mkOpenDecl (clauseOf " open fooTheory barTheory; val x = 1;".toList ⟨0, 6, 26, 25⟩),
         bannerDone,
         cleanupText (residueOf " open fooTheory barTheory; val x = 1;".toList ⟨0, 6, 26, 25⟩)] ∧
    (clauseOf " open fooTheory barTheory; val x = 1;".toList ⟨0, 6, 26, 25⟩).Pairwise
      (fun a b => lexLe a b = true) := by
  have h := processOpens_single " open fooTheory barTheory; val x = 1;".toList
    ⟨0, 6, 26, 25⟩
    (by set_option maxRecDepth 4000 in decide)
    (by set_option maxRecDepth 4000 in decide)
    (by set_option maxRecDepth 4000 in decide)
  exact ⟨h.1, h.2.1⟩

end Hol4
